import Mathlib

/-!
# Verification of `canzero-config-rs` — `src/builder/network_builder.rs`

A shallow embedding of the network-builder compiler of the
`mu-zero-HYPERLOOP/canzero-config-rs` repository, together with theorems
settling the specification claims about it.

Modelling conventions:
* Rust `u8`/`u64`/`usize` values are embedded as `Nat`; where an overflowing
  cast matters (the `as u8` DLC cast) it is made explicit with `% 2 ^ 8`.
* Rust `f64` values (decimal ranges, offsets, scales) are embedded as exact
  rationals `ℚ`; `(n as f64).log2().ceil() as u8` on `u64` inputs is
  embedded as `f64_log2_ceil`, which models the `u64 → f64` cast by the
  IEEE-754 round-to-nearest-ties-even rounding `f64_round` (the identity
  below `2 ^ 53`) before taking the ceiling logarithm, and uses that the
  cast of `ceil(log2(0)) = -inf` to `u8` saturates to `0`.
* Fallible code returns `Except CompileError _`.  The `todo!()` abort inside
  `build_attribute` (an unhandled-case process abort in Rust, not a
  `ConfigError`) is embedded as the distinguished outcome
  `CompileError.panicTodo`.
* The `description` / `visibility` / `value_table` metadata fields of the
  source data model are omitted: they are opaque payloads that none of the
  verified algorithms inspects.
-/

set_option autoImplicit false

/-- The error taxonomy of the builder (`errors::ConfigError`), extended with
the distinguished `panicTodo` outcome that embeds the `todo!()` abort of
`build_attribute`. -/
inductive CompileError where
  | invalidType (msg : String)
  | invalidRange (msg : String)
  | undefinedType (msg : String)
  | panicTodo
  deriving DecidableEq

deriving instance DecidableEq for Except

/-- Embedding of `config::SignalType`: primitive signal kinds with bit sizes.  `decimal`
carries the affine decode parameters (`value = raw * scale + offset`). -/
inductive SignalType where
  | signedInt (size : Nat)
  | unsignedInt (size : Nat)
  | decimal (size : Nat) (offset : ℚ) (scale : ℚ)
  deriving DecidableEq, Inhabited

/-- Bit width of a primitive signal kind (`SignalType::size`). -/
def SignalType.size : SignalType → Nat
  | .signedInt s => s
  | .unsignedInt s => s
  | .decimal s _ _ => s

/-- Embedding of `config::Type` (named `Ty` because `Type` is reserved in Lean). -/
inductive Ty where
  | primitive (st : SignalType)
  | struct (name : String) (attribs : List (String × Ty))
  | enum (name : String) (size : Nat) (entries : List (String × Nat))
  | array (len : Nat) (ty : Ty)
  deriving Inhabited

mutual
/-- Structural equality of types: the derived `PartialEq` of `config::Type`
(comparison of `TypeRef`s dereferences to the value). -/
def Ty.beq : Ty → Ty → Bool
  | .primitive a, .primitive b => a == b
  | .struct n1 a1, .struct n2 a2 => n1 == n2 && Ty.beqAttribs a1 a2
  | .enum n1 s1 e1, .enum n2 s2 e2 => n1 == n2 && s1 == s2 && e1 == e2
  | .array l1 t1, .array l2 t2 => l1 == l2 && Ty.beq t1 t2
  | _, _ => false

/-- Pointwise structural equality of struct attribute lists. -/
def Ty.beqAttribs : List (String × Ty) → List (String × Ty) → Bool
  | [], [] => true
  | (n1, t1) :: r1, (n2, t2) :: r2 => n1 == n2 && Ty.beq t1 t2 && Ty.beqAttribs r1 r2
  | _, _ => false
end

mutual
/-- Decidable structural equality of `Ty` (the automatic derivation does not
handle the nested `List (String × Ty)` field). -/
def Ty.decEq : (a b : Ty) → Decidable (a = b)
  | .primitive s1, .primitive s2 =>
    if h : s1 = s2 then isTrue (by rw [h])
    else isFalse (fun hh => h (by injection hh))
  | .struct n1 a1, .struct n2 a2 =>
    if h1 : n1 = n2 then
      match Ty.decEqAttribs a1 a2 with
      | isTrue h2 => isTrue (by rw [h1, h2])
      | isFalse h2 => isFalse (fun hh => h2 (by injection hh))
    else isFalse (fun hh => h1 (by injection hh))
  | .enum n1 s1 e1, .enum n2 s2 e2 =>
    if h1 : n1 = n2 then
      if h2 : s1 = s2 then
        if h3 : e1 = e2 then isTrue (by rw [h1, h2, h3])
        else isFalse (fun hh => h3 (by injection hh))
      else isFalse (fun hh => h2 (by injection hh))
    else isFalse (fun hh => h1 (by injection hh))
  | .array l1 t1, .array l2 t2 =>
    if h1 : l1 = l2 then
      match Ty.decEq t1 t2 with
      | isTrue h2 => isTrue (by rw [h1, h2])
      | isFalse h2 => isFalse (fun hh => h2 (by injection hh))
    else isFalse (fun hh => h1 (by injection hh))
  | .primitive _, .struct _ _ => isFalse (fun h => Ty.noConfusion h)
  | .primitive _, .enum _ _ _ => isFalse (fun h => Ty.noConfusion h)
  | .primitive _, .array _ _ => isFalse (fun h => Ty.noConfusion h)
  | .struct _ _, .primitive _ => isFalse (fun h => Ty.noConfusion h)
  | .struct _ _, .enum _ _ _ => isFalse (fun h => Ty.noConfusion h)
  | .struct _ _, .array _ _ => isFalse (fun h => Ty.noConfusion h)
  | .enum _ _ _, .primitive _ => isFalse (fun h => Ty.noConfusion h)
  | .enum _ _ _, .struct _ _ => isFalse (fun h => Ty.noConfusion h)
  | .enum _ _ _, .array _ _ => isFalse (fun h => Ty.noConfusion h)
  | .array _ _, .primitive _ => isFalse (fun h => Ty.noConfusion h)
  | .array _ _, .struct _ _ => isFalse (fun h => Ty.noConfusion h)
  | .array _ _, .enum _ _ _ => isFalse (fun h => Ty.noConfusion h)

/-- Decidable equality of struct attribute lists. -/
def Ty.decEqAttribs : (a b : List (String × Ty)) → Decidable (a = b)
  | [], [] => isTrue rfl
  | (n1, t1) :: r1, (n2, t2) :: r2 =>
    if h1 : n1 = n2 then
      match Ty.decEq t1 t2, Ty.decEqAttribs r1 r2 with
      | isTrue h2, isTrue h3 => isTrue (by rw [h1, h2, h3])
      | isFalse h2, _ =>
        isFalse (fun hh => h2 (congrArg Prod.snd (List.head_eq_of_cons_eq hh)))
      | _, isFalse h3 => isFalse (fun hh => h3 (List.tail_eq_of_cons_eq hh))
    else
      isFalse (fun hh => h1 (congrArg Prod.fst (List.head_eq_of_cons_eq hh)))
  | [], _ :: _ => isFalse (fun h => List.noConfusion h)
  | _ :: _, [] => isFalse (fun h => List.noConfusion h)
end

instance : DecidableEq Ty := Ty.decEq

/-- Embedding of `config::signal::Signal`: name, primitive kind and bit offset within the
message payload.  The bit width derives from the kind. -/
structure Signal where
  name : String
  ty : SignalType
  offset : Nat
  deriving DecidableEq

/-- Embeds `Signal::size`: the bit width of the signal. -/
def Signal.size (s : Signal) : Nat := s.ty.size

/-- Embedding of `config::TypeSignalEncoding`: tree mirroring a `Ty` with signal leaves. -/
inductive TypeSignalEncoding where
  | primitive (name : String) (ty : Ty) (signal : Signal)
  | composite (name : String) (attributes : List TypeSignalEncoding) (ty : Ty)

/-- Round-to-nearest-ties-even of a natural number to 53 significant bits:
the exact value of the IEEE-754 `u64 as f64` cast on its `u64` domain.  For
`n < 2 ^ 53` the cast is exact; otherwise `n` rounds to the nearest multiple
of the unit in the last place `2 ^ (⌊log₂ n⌋ - 52)`, ties going to the even
quotient.  Every `u64` value lies far inside the `f64` exponent range, so
only this significand rounding matters (a quotient carry to `2 ^ 53` just
lands on the next exponent's first representable value, which the
`rounded * 2 ^ e` form yields correctly). -/
def f64_round (n : Nat) : Nat :=
  if n < 2 ^ 53 then n
  else
    let e := Nat.log 2 n - 52
    let q := n / 2 ^ e
    let r := n % 2 ^ e
    let rounded :=
      if r < 2 ^ (e - 1) then q
      else if 2 ^ (e - 1) < r then q + 1
      else if q % 2 = 0 then q else q + 1
    rounded * 2 ^ e

/-- Embeds `(n as f64).log2().ceil() as u8` for a `u64` value `n`: the
`u64 → f64` cast rounds `n` to `f64_round n`, and on the rounded value the
composition of `log2` and `ceil` is the exact ceiling logarithm
`⌈log₂ _⌉ = Nat.clog 2 _` (exact for any faithfully rounded `f64::log2`,
since the rounded value and the power-of-two thresholds are exactly
representable).  For `n = 0` Rust computes `(0.0).log2() = -inf`, and the
`as u8` cast of `-inf` saturates to `0`. -/
def f64_log2_ceil (n : Nat) : Nat :=
  if n = 0 then 0 else Nat.clog 2 (f64_round n)

/-! ## The type-descriptor grammar of `resolve_type` (lines 236-329)

The source matches the descriptor string against four anchored regexes in
order; the embedding parses `List Char` with hand-rolled recognisers that are
faithful to the (leftmost-greedy, backtracking) regex semantics. -/

/-- Numeric value of a digit string (the captures are known to be all-digit
strings when this is applied). -/
def digits_to_nat (cs : List Char) : Nat :=
  cs.foldl (fun acc c => acc * 10 + (c.toNat - 48)) 0

/-- Recogniser for the decimal-literal fragment `[+-]?([0-9]*[.])?[0-9]+`
used for the `min` / `max` captures of the decimal descriptor. -/
def num_matches (cs : List Char) : Bool :=
  let body :=
    match cs with
    | c :: rest => if c = '+' ∨ c = '-' then rest else cs
    | [] => []
  if body.contains '.' then
    let intPart := body.takeWhile (fun c => c ≠ '.')
    match body.dropWhile (fun c => c ≠ '.') with
    | _ :: frac =>
      intPart.all Char.isDigit && frac.all Char.isDigit &&
        !frac.isEmpty && !frac.contains '.'
    | [] => false
  else
    body.all Char.isDigit && !body.isEmpty

/-- Exact rational value of a matched decimal literal (Rust parses to `f64`;
the embedding keeps the exact value). -/
def num_value (cs : List Char) : ℚ :=
  let sgn : ℚ :=
    match cs with
    | c :: _ => if c = '-' then -1 else 1
    | [] => 1
  let body :=
    match cs with
    | c :: rest => if c = '+' ∨ c = '-' then rest else cs
    | [] => []
  let intPart := body.takeWhile (fun c => c ≠ '.')
  let frac :=
    match body.dropWhile (fun c => c ≠ '.') with
    | _ :: fr => fr
    | [] => []
  sgn * ((digits_to_nat intPart : ℚ) + (digits_to_nat frac : ℚ) / (10 : ℚ) ^ frac.length)

/-- The `[0-9]{1,2}` size capture of the `i<N>` / `u<N>` rules: at most two
digits, anchored. -/
def parse_int_size (cs : List Char) : Option Nat :=
  if cs.all Char.isDigit ∧ 1 ≤ cs.length ∧ cs.length ≤ 2 then
    some (digits_to_nat cs)
  else none

/-- Splits the `min..max` interior of a decimal descriptor at the regex's
split point: greedy matching tries the longest `min` capture first, so the
split is the largest prefix that is a decimal literal followed by `..` and a
decimal literal. -/
def split_range (inner : List Char) : Option (List Char × List Char) :=
  let pick := ((List.range (inner.length + 1)).reverse).find? (fun i =>
    num_matches (inner.take i) &&
      (match inner.drop i with
       | '.' :: '.' :: rest => num_matches rest
       | _ => false))
  pick.map (fun i => (inner.take i, (inner.drop i).drop 2))

/-- Recogniser for `^d([0-9]{1,2})<min>..<max>$` (regex of lines 266-267),
returning the size and the exact values of the two captures. -/
def parse_decimal_desc (cs : List Char) : Option (Nat × ℚ × ℚ) :=
  match cs with
  | 'd' :: rest =>
    let ds := rest.takeWhile Char.isDigit
    let after := rest.dropWhile Char.isDigit
    if 1 ≤ ds.length ∧ ds.length ≤ 2 then
      match after with
      | '<' :: more =>
        match more.getLast? with
        | some '>' =>
          match split_range more.dropLast with
          | some (mn, mx) => some (digits_to_nat ds, num_value mn, num_value mx)
          | none => none
        | _ => none
      | _ => none
    else none
  | _ => none

/-- Recogniser for the type capture `[a-zA-Z][a-zA-Z0-9]*(<num..num>)?` of
the array regex. -/
def array_ty_ok (tyPart : List Char) : Bool :=
  match tyPart with
  | c :: tail =>
    c.isAlpha &&
      (let opt := tail.dropWhile (fun ch => ch.isAlpha || ch.isDigit)
       (opt.isEmpty ||
         (match opt with
          | '<' :: more =>
            (match more.getLast? with
             | some '>' => (split_range more.dropLast).isSome
             | _ => false)
          | _ => false)))
  | [] => false

/-- Recogniser for the array regex
`^([a-zA-Z][a-zA-Z0-9]*(<num..num>)?)\[([0-9]+)\]$` (lines 293-294),
returning the captured inner type descriptor and the length. -/
def parse_array_desc (cs : List Char) : Option (List Char × Nat) :=
  match cs.dropWhile (fun c => c ≠ '[') with
  | '[' :: lenAndClose =>
    match lenAndClose.getLast? with
    | some ']' =>
      if array_ty_ok (cs.takeWhile (fun c => c ≠ '[')) ∧ lenAndClose.dropLast ≠ [] ∧
          lenAndClose.dropLast.all Char.isDigit then
        some (cs.takeWhile (fun c => c ≠ '['), digits_to_nat lenAndClose.dropLast)
      else none
    | _ => none
  | _ => none

/-- The body of the decimal match arm of `resolve_type` (lines 268-290):
`InvalidRange` when `min ≥ max` (checked before the size bound), otherwise
`offset = min` and `scale = (max - min) / ((u64::MAX >> (64 - size)) as f64)`,
where `u64::MAX >> (64 - size) = 2^size - 1` for `1 ≤ size ≤ 64`.
`none` embeds the fall-through to the next grammar rule when `size > 64`
(for such sizes the source's shift would overflow; no claim exercises them,
and the two-digit capture bounds `size < 100`). -/
def decimal_rule (size : Nat) (mn mx : ℚ) : Option (Except CompileError Ty) :=
  if mn ≥ mx then
    some (.error (.invalidRange "invalid decimal range min has to be less than max"))
  else
    let scale := (mx - mn) / ((2 : ℚ) ^ size - 1)
    if size ≤ 64 then
      some (.ok (.primitive (.decimal size mn scale)))
    else none

/-- The capture `(parse_array_desc cs).inner` is strictly shorter than `cs`: the capture
stops at the `[` that the bracketed length suffix must still contain. -/
theorem parse_array_desc_length {cs inner : List Char} {n : Nat}
    (h : parse_array_desc cs = some (inner, n)) : inner.length < cs.length := by
  have hlen := congrArg List.length
    (List.takeWhile_append_dropWhile (p := fun c => decide (c ≠ '[')) (l := cs))
  rw [List.length_append] at hlen
  unfold parse_array_desc at h
  split at h
  · rename_i lac hdw
    split at h
    · split at h
      · simp only [Option.some.injEq, Prod.mk.injEq] at h
        obtain ⟨h1, -⟩ := h
        subst h1
        rw [hdw] at hlen
        simp only [List.length_cons] at hlen
        omega
      · exact absurd h (by simp)
    · exact absurd h (by simp)
  · exact absurd h (by simp)

/-- The body of `resolve_type` (lines 236-329): tries the four grammar rules
in order, falling back to exact-name lookup among the already-elaborated
types, and fails with `InvalidType` when nothing matches.  Errors of the
decimal rule and of the recursive array-element resolution propagate.
The only recursion is the array rule resolving its element descriptor, which
is strictly shorter than the whole descriptor (`parse_array_desc_length`);
the embedding makes the recursion structural on an explicit `depth` that the
wrapper `resolve_type` seeds with the descriptor length plus one, so the
`depth = 0` arm is unreachable. -/
def resolve_type_rec (types : List Ty) : Nat → List Char → Except CompileError Ty
  | 0, cs => .error (.invalidType ("failed to resolve type : " ++ String.mk cs))
  | depth + 1, cs =>
  let intArm : Option Ty :=
    match cs with
    | 'i' :: rest =>
      match parse_int_size rest with
      | some size =>
        if 0 < size ∧ size ≤ 64 then some (.primitive (.signedInt size)) else none
      | none => none
    | _ => none
  match intArm with
  | some ty => .ok ty
  | none =>
    let uintArm : Option Ty :=
      match cs with
      | 'u' :: rest =>
        match parse_int_size rest with
        | some size =>
          if 0 < size ∧ size ≤ 64 then some (.primitive (.unsignedInt size)) else none
        | none => none
      | _ => none
    match uintArm with
    | some ty => .ok ty
    | none =>
      let decArm : Option (Except CompileError Ty) :=
        match parse_decimal_desc cs with
        | some (size, mn, mx) => decimal_rule size mn mx
        | none => none
      match decArm with
      | some r => r
      | none =>
        match parse_array_desc cs with
        | some (inner, len) =>
          match resolve_type_rec types depth inner with
          | .ok innerTy => .ok (.array len innerTy)
          | .error e => .error e
        | none =>
          match types.find? (fun t =>
              match t with
              | .struct n _ => n = String.mk cs
              | .enum n _ _ => n = String.mk cs
              | _ => false) with
          | some t => .ok t
          | none => .error (.invalidType ("failed to resolve type : " ++ String.mk cs))

/-- Embeds `resolve_type` (lines 236-329). -/
def resolve_type (types : List Ty) (cs : List Char) : Except CompileError Ty :=
  resolve_type_rec types (cs.length + 1) cs

/-! ## Enum elaboration (`build()`, lines 598-625) -/

/-- The enum entry-value assignment loop of `build()` (lines 601-616), with
running state `(entries, max_entry)` starting at `([], 0)`.  An entry with an
explicit value receives it and raises `max_entry` to at least it; an entry
without one increments `max_entry` (except when the entry list is still
empty) and receives the result. -/
def assign_enum_entries_from (state : List (String × Nat) × Nat) :
    List (String × Option Nat) → List (String × Nat) × Nat
  | [] => state
  | (nm, some v) :: rest =>
    assign_enum_entries_from (state.1 ++ [(nm, v)], max state.2 v) rest
  | (nm, none) :: rest =>
    let m := if state.1.isEmpty then state.2 else state.2 + 1
    assign_enum_entries_from (state.1 ++ [(nm, m)], m) rest

/-- Entry-value assignment for a whole enum declaration. -/
def assign_enum_entries (decls : List (String × Option Nat)) :
    List (String × Nat) × Nat :=
  assign_enum_entries_from ([], 0) decls

/-- Enum elaboration in `build()` (lines 598-625): assign entry values, then
`size = ((max_entry + 1) as f64).log2().ceil() as u8`.  The addition
`max_entry + 1` is `u64` arithmetic and wraps at `u64::MAX`, hence the
`% 2 ^ 64`; the resulting width is at most 64, so the final `u8` cast is
lossless. -/
def build_enum_type (name : String) (decls : List (String × Option Nat)) : Ty :=
  .enum name (f64_log2_ceil (((assign_enum_entries decls).2 + 1) % 2 ^ 64))
    (assign_enum_entries decls).1

/-! ## The Signal Flattening Engine (`build_attribute`, lines 690-760) -/

mutual
/-- Embeds `build_attribute` (lines 690-760): flattens a resolved type into signals
at the running bit offset `off`, also producing the mirroring encoding node.
* `Primitive` emits one signal of the primitive's width and advances the
  offset by it.
* `Struct` recurses into the attributes in declared order, threading the
  offset, with prefix `"{pfx}_{struct_name}"`.
* `Enum` recomputes a width from the entry values as
  `(max as f64).log2().ceil() as u8` (note: `max`, not `max + 1`, and the
  stored enum `size` is ignored — bound as `_size` like the source's
  `size: _`) and emits one unsigned signal of that width.
* `Array` is `todo!()` in the source: the `panicTodo` outcome. -/
def build_attribute (ty : Ty) (name : String) (off : Nat) (pfx : String) :
    Except CompileError (TypeSignalEncoding × List Signal × Nat) :=
  match ty with
  | .primitive st =>
    let signal : Signal := ⟨pfx ++ "_" ++ name, st, off⟩
    .ok (.primitive name ty signal, [signal], off + signal.size)
  | .struct structName attribs =>
    match build_attributes attribs (pfx ++ "_" ++ structName) off with
    | .ok (encs, sigs, off2) => .ok (.composite name encs ty, sigs, off2)
    | .error e => .error e
  | .enum enumName _size entries =>
    let mx := (entries.map Prod.snd).foldl max 0
    let sz := f64_log2_ceil mx
    let signal : Signal := ⟨pfx ++ "_" ++ enumName, .unsignedInt sz, off⟩
    .ok (.primitive name ty signal, [signal], off + signal.size)
  | .array _ _ => .error .panicTodo

/-- The struct-attribute loop of `build_attribute` (lines 719-728): flatten
each attribute in declared order, threading the offset and accumulating the
emitted signals in order. -/
def build_attributes (attribs : List (String × Ty)) (pfx : String) (off : Nat) :
    Except CompileError (List TypeSignalEncoding × List Signal × Nat) :=
  match attribs with
  | [] => .ok ([], [], off)
  | (attribName, attribTy) :: rest =>
    match build_attribute attribTy attribName off pfx with
    | .ok (enc, sigs, off2) =>
      match build_attributes rest pfx off2 with
      | .ok (encs, sigs2, off3) => .ok (enc :: encs, sigs ++ sigs2, off3)
      | .error e => .error e
    | .error e => .error e
end

/-! ## Message compilation (`build()`, lines 659-802) -/

/-- Raw-signal format compilation (lines 670-683): assign sequential
contiguous offsets starting at 0 (any caller-supplied offset is overwritten)
and prefix each name with the message name. -/
def compile_raw_signals (msgName : String) : List Signal → Nat → List Signal
  | [], _ => []
  | s :: rest, off =>
    { s with name := msgName ++ "_" ++ s.name, offset := off } ::
      compile_raw_signals msgName rest (off + s.size)

/-- The typed-format field loop (lines 762-771): resolve each field's type
descriptor against the elaborated types and flatten it at the running offset
with prefix `"value_name"` (the literal string built by the source's
`format!("value_name")`). -/
def compile_typed_fields (types : List Ty) :
    List (String × String) → Nat →
    Except CompileError (List TypeSignalEncoding × List Signal × Nat)
  | [], off => .ok ([], [], off)
  | (typeName, varName) :: rest, off =>
    match resolve_type types typeName.toList with
    | .ok tyRef =>
      match build_attribute tyRef varName off "value_name" with
      | .ok (enc, sigs, off2) =>
        match compile_typed_fields types rest off2 with
        | .ok (encs, sigs2, off3) => .ok (enc :: encs, sigs ++ sigs2, off3)
        | .error e => .error e
      | .error e => .error e
    | .error e => .error e

/-- Embedding of `builder::MessageFormat`: the three message format kinds.  For the raw
`signals` format the builder holds the declared signals; for `types` it
holds `(type descriptor, field name)` pairs. -/
inductive MessageFormat where
  | signals (sigs : List Signal)
  | types (fields : List (String × String))
  | empty

/-- The per-message signal list produced by `build()` (lines 669-777),
by format. -/
def compile_message_signals (declaredTypes : List Ty) (msgName : String) :
    MessageFormat → Except CompileError (List Signal)
  | .signals sigs => .ok (compile_raw_signals msgName sigs 0)
  | .types fields =>
    match compile_typed_fields declaredTypes fields 0 with
    | .ok (_, sigs, _) => .ok sigs
    | .error e => .error e
  | .empty => .ok []

/-- The `max_bit` accumulation of lines 779-783: the maximum of
`offset + width` over the message's signals, starting from 0. -/
def max_bit (signals : List Signal) : Nat :=
  signals.foldl (fun m s => max m (s.offset + s.size)) 0

/-- DLC computation of line 784: `((max_bit + 8 - 1) / 8) as u8`.
The `as u8` cast truncates, hence the explicit `% 2 ^ 8`. -/
def compute_dlc (signals : List Signal) : Nat :=
  ((max_bit signals + 8 - 1) / 8) % 2 ^ 8

/-! ## Node creation (`create_node`, lines 201-216) -/

/-- Embedding of `builder::NodeBuilder`, reduced to the one field `create_node`
inspects: the node name. -/
structure NodeBuilder where
  name : String
  deriving DecidableEq

/-- Embeds `create_node` (lines 201-216): return the existing builder with the
given name when there is one, otherwise create a fresh one and push it. -/
def create_node (nodes : List NodeBuilder) (name : String) :
    List NodeBuilder × NodeBuilder :=
  match nodes.find? (fun n => n.name = name) with
  | some node => (nodes, node)
  | none => (nodes ++ [⟨name⟩], ⟨name⟩)

/-- Folding a sequence of `create_node` calls over an initially empty node
list, returning the final node list. -/
def run_creates (names : List String) : List NodeBuilder :=
  names.foldl (fun ns nm => (create_node ns nm).1) []

/-- First occurrences of a list of names, in order (specification-side
helper for the `create_node` claim). -/
def first_occurrences (seen : List String) : List String → List String
  | [] => []
  | x :: xs =>
    if x ∈ seen then first_occurrences seen xs
    else x :: first_occurrences (x :: seen) xs

/-! ## Rx-stream positional mapping (`build()`, lines 1089-1122) -/

/-- Stable insertion of a `(position, object entry)` pair: the pair goes
after every pair with a position `≤` its own (the comparator of
lines 1090-1098 orders by position only, and `sort_by` is stable). -/
def insert_by_pos {α : Type} (x : Nat × α) : List (Nat × α) → List (Nat × α)
  | [] => [x]
  | y :: ys => if x.1 < y.1 then x :: y :: ys else y :: insert_by_pos x ys

/-- The `builder_mapping.sort_by(...)` call of lines 1090-1098: stable sort
of the subscriber pairs by position ascending. -/
def sort_by_pos {α : Type} (l : List (Nat × α)) : List (Nat × α) :=
  l.foldl (fun acc x => insert_by_pos x acc) []

/-- The mapping loop of lines 1100-1122, walking positions `i` over
`0..oe_count` with cursor `j` into the sorted pair list `bm`: emit
`Some entry` and advance `j` when `bm[j].0 == i`, else emit `None`.
(The `bm.get? j = none` branch is unreachable: `j` never outruns `bm`
inside the loop, matching the panic-free `builder_mapping[j]` indexing.) -/
def rx_walk {α : Type} (bm : List (Nat × α)) : Nat → List Nat → List (Option α)
  | _, [] => []
  | j, i :: rest =>
    match bm.get? j with
    | some (p, oe) =>
      if p = i then some oe :: rx_walk bm (j + 1) rest
      else none :: rx_walk bm j rest
    | none => none :: rx_walk bm j rest

/-- The rx-stream mapping construction of lines 1089-1122: sort the
subscriber's `(position, object entry)` pairs by position, then walk
positions `0..oe_count` where `oe_count = builder_mapping.len()` is the
number of subscriber pairs (NOT the publisher stream's arity). -/
def build_rx_stream_mapping {α : Type} (pairs : List (Nat × α)) : List (Option α) :=
  let bm := sort_by_pos pairs
  rx_walk bm 0 (List.range bm.length)

/-! ## Topological ordering (`topo_sort_types` lines 428-486,
`topo_sort_type_builders` lines 488-562)

Both functions share the same depth-first post-order core `topo_sort_rec`:
mark the current node visited, recurse into its unvisited adjacents, then
push it.  The embedding `dfsList` processes an explicit worklist, which
reproduces both the inner adjacency loop and the outer `for i in 0..n`
driver loop.  Note the marking discipline makes the recursion terminate on
every input (each node is visited at most once). -/

/-- Number of `false` entries of a `visited` array. -/
def countFalses (l : List Bool) : Nat := l.countP (fun b => !b)

theorem countFalses_set_true {l : List Bool} {i : Nat} (h : i < l.length)
    (hf : l.getD i false = false) :
    countFalses (l.set i true) + 1 = countFalses l := by
  induction l generalizing i with
  | nil => simp at h
  | cons b t ih =>
    cases i with
    | zero =>
      simp only [List.getD, List.get?, Option.getD_some] at hf
      subst hf
      simp [countFalses, List.countP_cons]
    | succ j =>
      have hj : j < t.length := by simpa using h
      have hf2 : t.getD j false = false := by simpa [List.getD] using hf
      have := ih hj hf2
      simp only [List.set_cons_succ, countFalses, List.countP_cons] at *
      omega

/-- The DFS core shared by `topo_sort_types` and `topo_sort_type_builders`
(`topo_sort_rec`, lines 465-478 / 539-552, plus the driver loops): process a
worklist of `pending` nodes; an already-visited node is skipped; an
unvisited node is marked, its adjacency list is processed recursively, and
the node is then pushed onto the output stack.  The result carries the
facts needed for termination: visiting never increases the number of
unvisited nodes and never changes the array length.  (The
`current ≥ visited.length` branch is unreachable for the adjacency lists
built below, whose entries are positions in the node list; the Rust code
would panic there.) -/
def dfsList (adj : List (List Nat)) :
    (pending : List Nat) → (visited : List Bool) → (stack : List Nat) →
    {r : List Bool × List Nat //
      countFalses r.1 ≤ countFalses visited ∧ r.1.length = visited.length}
  | [], visited, _stack => ⟨(visited, _stack), le_refl _, rfl⟩
  | current :: rest, visited, stack =>
    if hv : visited.getD current false then
      let r := dfsList adj rest visited stack
      ⟨r.1, r.2⟩
    else if hlt : current < visited.length then
      match dfsList adj (adj.getD current []) (visited.set current true) stack with
      | ⟨(v2, s2), hp1⟩ =>
        match dfsList adj rest v2 (s2 ++ [current]) with
        | ⟨(v3, s3), hp2⟩ =>
          ⟨(v3, s3), by
            obtain ⟨hp1a, hp1b⟩ := hp1
            obtain ⟨hp2a, hp2b⟩ := hp2
            dsimp only at hp1a hp1b hp2a hp2b
            simp only [List.length_set] at hp1b
            have hset := countFalses_set_true hlt (by simpa using hv)
            refine ⟨?_, ?_⟩ <;> dsimp only <;> omega⟩
    else
      let r := dfsList adj rest visited stack
      ⟨r.1, r.2⟩
termination_by pending visited _ => (countFalses visited, pending.length)
decreasing_by
  · apply Prod.Lex.right
    simp
  · apply Prod.Lex.left
    have hset := countFalses_set_true hlt (by simpa using hv)
    omega
  · apply Prod.Lex.left
    obtain ⟨hp1a, hp1b⟩ := hp1
    dsimp only at hp1a hp1b
    have hset := countFalses_set_true hlt (by simpa using hv)
    omega
  · apply Prod.Lex.right
    simp

/-- The full ordering produced by the DFS driver loop: worklist `0..n`,
all nodes initially unvisited, empty output stack. -/
def topo_order (adj : List (List Nat)) : List Nat :=
  (dfsList adj (List.range adj.length) (List.replicate adj.length false) []).1.2

/-- Dependency adjacency built by `topo_sort_types` (lines 434-462): a
struct node depends on the position of each attribute type found in the
list by structural equality; an array node on the position of its element
type; a type not found in the list contributes no edge. -/
def type_adj_lists (types : List Ty) : List (List Nat) :=
  types.map (fun ty =>
    match ty with
    | .struct _ attribs =>
      attribs.foldl (fun acc a =>
        match types.findIdx? (fun t => Ty.beq t a.2) with
        | some adjIndex => acc ++ [adjIndex]
        | none => acc) []
    | .array _ elemTy =>
      match types.findIdx? (fun t => Ty.beq t elemTy) with
      | some adjIndex => [adjIndex]
      | none => []
    | _ => [])

/-- Embeds `topo_sort_types` (lines 428-486): DFS post-order over the structural
dependency graph, mapped back to the types. -/
def topo_sort_types (types : List Ty) : List Ty :=
  (topo_order (type_adj_lists types)).map (fun i => types.getD i default)

/-- Embedding of `builder::TypeBuilder`: a not-yet-elaborated type declaration (enum
entries with optional explicit values, struct attributes with descriptor
strings). -/
inductive TypeBuilder where
  | enumB (name : String) (entries : List (String × Option Nat))
  | structB (name : String) (attributes : List (String × String))

/-- Embeds `TypeBuilder::name`. -/
def TypeBuilder.name : TypeBuilder → String
  | .enumB n _ => n
  | .structB n _ => n

instance : Inhabited TypeBuilder := ⟨.enumB "" []⟩

/-- Dependency computation of `topo_sort_type_builders` (lines 501-535):
enums have no dependencies; a struct depends on each attribute whose
descriptor is not an in-place primitive/decimal/array descriptor (tested by
resolving it against an empty type list); such an attribute's descriptor
must equal some declared builder's name, otherwise `UndefinedType`. -/
def builder_deps (tbs : List TypeBuilder) : TypeBuilder → Except CompileError (List Nat)
  | .enumB _ _ => .ok []
  | .structB _ attrs =>
    attrs.foldlM (fun acc a =>
      match resolve_type [] a.2.toList with
      | .ok _ => .ok acc
      | .error _ =>
        match tbs.findIdx? (fun b => b.name = a.2) with
        | some adjIndex => .ok (acc ++ [adjIndex])
        | none => .error (.undefinedType a.2)) []

/-- All per-builder dependency lists (the loop of lines 501-535). -/
def builder_adj_lists (tbs : List TypeBuilder) :
    Except CompileError (List (List Nat)) :=
  tbs.mapM (builder_deps tbs)

/-- Embeds `topo_sort_type_builders` (lines 488-562). -/
def topo_sort_type_builders (tbs : List TypeBuilder) :
    Except CompileError (List TypeBuilder) :=
  match builder_adj_lists tbs with
  | .ok adj => .ok ((topo_order adj).map (fun i => tbs.getD i default))
  | .error e => .error e

/-- One dependency edge of an adjacency structure: `step_rel adj u v` holds
when `v` occurs in `u`'s adjacency list (`u` depends on `v`). -/
def step_rel (adj : List (List Nat)) (u v : Nat) : Prop :=
  v ∈ adj.getD u []

/-- Acyclicity of the dependency graph: no node reaches itself through a
nonempty chain of dependency edges. -/
def GraphAcyclic (adj : List (List Nat)) : Prop :=
  ∀ u, ¬ Relation.TransGen (step_rel adj) u u

/-! ## Supporting lemmas on enum entry assignment -/

/-- The assigned entry names are the declared names, in declaration order,
appended to the accumulated state. -/
theorem assign_enum_entries_from_names (decls : List (String × Option Nat)) :
    ∀ es m, ((assign_enum_entries_from (es, m) decls).1.map Prod.fst) =
      es.map Prod.fst ++ decls.map Prod.fst := by
  induction decls with
  | nil => intro es m; simp [assign_enum_entries_from]
  | cons d rest ih =>
    intro es m
    match d with
    | (nm, some v) => simp [assign_enum_entries_from, ih]
    | (nm, none) => simp [assign_enum_entries_from, ih]

/-- The running `max_entry` is the maximum of the values assigned so far
(`0` when none): the loop invariant of lines 601-616. -/
theorem assign_enum_entries_from_max (decls : List (String × Option Nat)) :
    ∀ es m, m = (es.map Prod.snd).foldl max 0 →
      (assign_enum_entries_from (es, m) decls).2 =
        (((assign_enum_entries_from (es, m) decls).1.map Prod.snd).foldl max 0) := by
  induction decls with
  | nil => intro es m hm; simpa [assign_enum_entries_from] using hm
  | cons d rest ih =>
    intro es m hm
    match d with
    | (nm, some v) =>
      simp only [assign_enum_entries_from]
      apply ih
      simp [List.foldl_append, ← hm]
    | (nm, none) =>
      simp only [assign_enum_entries_from]
      apply ih
      rcases es with _ | ⟨e, es'⟩
      · simp at hm
        simp [hm]
      · simp only [List.isEmpty_cons, Bool.false_eq_true, if_false,
          List.map_append, List.foldl_append, ← hm]
        simp only [List.map_cons, List.map_nil, List.foldl_cons, List.foldl_nil]
        omega

/-- Splitting the declaration list splits the assignment run. -/
theorem assign_enum_entries_from_append_decl (a b : List (String × Option Nat)) :
    ∀ st, assign_enum_entries_from st (a ++ b) =
      assign_enum_entries_from (assign_enum_entries_from st a) b := by
  induction a with
  | nil => intro st; rfl
  | cons d rest ih =>
    intro st
    match st, d with
    | (es, m), (nm, some v) => simp [assign_enum_entries_from, ih]
    | (es, m), (nm, none) => simp [assign_enum_entries_from, ih]

/-- The accumulated entries are preserved as a prefix. -/
theorem assign_enum_entries_keeps_front (decls : List (String × Option Nat)) :
    ∀ es m, ∃ l, (assign_enum_entries_from (es, m) decls).1 = es ++ l := by
  induction decls with
  | nil => intro es m; exact ⟨[], by simp [assign_enum_entries_from]⟩
  | cons d rest ih =>
    intro es m
    match d with
    | (nm, some v) =>
      obtain ⟨l, hl⟩ := ih (es ++ [(nm, v)]) (max m v)
      exact ⟨(nm, v) :: l, by simp [assign_enum_entries_from, hl]⟩
    | (nm, none) =>
      obtain ⟨l, hl⟩ :=
        ih (es ++ [(nm, if es.isEmpty then m else m + 1)]) (if es.isEmpty then m else m + 1)
      refine ⟨(nm, if es.isEmpty then m else m + 1) :: l, ?_⟩
      simp only [assign_enum_entries_from]
      rw [hl, List.append_assoc]
      rfl

/-- The number of assigned entries equals the accumulated count plus the
number of declarations. -/
theorem assign_enum_entries_from_length (decls : List (String × Option Nat))
    (es : List (String × Nat)) (m : Nat) :
    (assign_enum_entries_from (es, m) decls).1.length = es.length + decls.length := by
  have h := congrArg List.length (assign_enum_entries_from_names decls es m)
  simpa using h

/-- Value assigned to the entry at position `pre.length` when the enum is
declared as `pre ++ [(nm, ov)] ++ post`: an explicit value is taken as-is;
an implicit entry receives 0 when it is the first entry and otherwise the
maximum of all previously assigned values plus one. -/
theorem assign_enum_entries_at (pre post : List (String × Option Nat)) (nm : String)
    (ov : Option Nat) :
    ((assign_enum_entries (pre ++ (nm, ov) :: post)).1.map Prod.snd).getD pre.length 0 =
      match ov with
      | some v => v
      | none => if pre.isEmpty then 0
          else ((assign_enum_entries pre).1.map Prod.snd).foldl max 0 + 1 := by
  unfold assign_enum_entries
  rw [assign_enum_entries_from_append_decl]
  rcases h1 : assign_enum_entries_from ([], 0) pre with ⟨es1, m1⟩
  have h1' : assign_enum_entries pre = (es1, m1) := h1
  have hlen1 : es1.length = pre.length := by
    have hl := assign_enum_entries_from_length pre [] 0
    rw [h1] at hl; simpa using hl
  have hmax1 : m1 = (es1.map Prod.snd).foldl max 0 := by
    have hm := assign_enum_entries_from_max pre [] 0 (by simp)
    rw [h1] at hm; simpa using hm
  have hemp : es1.isEmpty = pre.isEmpty := by
    cases es1 <;> cases pre <;> simp_all
  cases ov with
  | some v =>
    simp only [assign_enum_entries_from]
    obtain ⟨l, hl⟩ := assign_enum_entries_keeps_front post (es1 ++ [(nm, v)]) (max m1 v)
    rw [hl, List.append_assoc, List.map_append,
      List.getD_append_right _ _ _ _ (by simp [hlen1])]
    simp [hlen1]
  | none =>
    simp only [assign_enum_entries_from]
    obtain ⟨l, hl⟩ := assign_enum_entries_keeps_front post
      (es1 ++ [(nm, if es1.isEmpty then m1 else m1 + 1)]) (if es1.isEmpty then m1 else m1 + 1)
    rw [hl, List.append_assoc, List.map_append,
      List.getD_append_right _ _ _ _ (by simp [hlen1])]
    simp only [List.length_map, hlen1, Nat.sub_self, List.map_append, List.map_cons,
      List.map_nil, List.singleton_append, List.getD_cons_zero, hemp]
    rcases hp : pre.isEmpty with _ | _
    · simp only [Bool.false_eq_true, if_false]
      rw [hmax1]
    · have hee : es1 = [] := by
        rw [hp] at hemp
        cases es1 <;> simp_all
      subst hee
      simp at hmax1
      simp [hmax1]

/-! ## Claim theorems -/

/-- Claim C1 (code bug): for the spec's own example — a publisher stream with 5
positions and subscriber pairs `{1 ↦ oeA, 3 ↦ oeB}` — the rx-stream mapping
loop of `build()` produces `[None, Some oeA]`: the loop of lines 1108-1122
walks `0..oe_count` with `oe_count = builder_mapping.len() = 2`, the number
of subscriber pairs, never the publisher arity, so the result has length 2
instead of the claimed `[None, Some oeA, None, Some oeB, None]` of
length 5. -/
theorem c1_rx_stream_mapping_eval :
    build_rx_stream_mapping [(1, "oeA"), (3, "oeB")] = [none, some "oeA"] ∧
    (build_rx_stream_mapping [(1, "oeA"), (3, "oeB")]).length ≠ 5 := by
  constructor
  · rfl
  · decide

/-- Claim C2 (code bug): the compiled enum `{A = 0, B = 1}` has stored bit
width `ceil(log2(1 + 1)) = 1`, but the Signal Flattening Engine emits for a
field of this enum type an unsigned signal of width
`ceil(log2(max)) = ceil(log2(1)) = 0` (line 743 uses `max`, not `max + 1`,
and ignores the enum's stored size), so the emitted width differs from the
enum's compiled bit width — a 0-bit signal cannot even encode entry `B`. -/
theorem c2_enum_field_width_eval :
    build_enum_type "E" [("A", some 0), ("B", some 1)] =
      Ty.enum "E" 1 [("A", 0), ("B", 1)] ∧
    build_attribute (Ty.enum "E" 1 [("A", 0), ("B", 1)]) "x" 0 "v" =
      .ok (.primitive "x" (Ty.enum "E" 1 [("A", 0), ("B", 1)]) ⟨"v_E", .unsignedInt 0, 0⟩,
        [⟨"v_E", .unsignedInt 0, 0⟩], 0) ∧
    (0 : Nat) ≠ 1 := by
  refine ⟨?_, ?_, by decide⟩
  · norm_num [build_enum_type, assign_enum_entries, assign_enum_entries_from,
      f64_log2_ceil, f64_round, Nat.clog]
  · norm_num [build_attribute, f64_log2_ceil, f64_round, Nat.clog, Signal.size,
      SignalType.size]
    decide

/-- Claim C3 counterexample: the claim says an implicit entry receives the
previous entry's value plus one, so in `{A = 5, B = 1, C}` entry `C` should
get `1 + 1 = 2`; the code instead tracks the running maximum and assigns
`C = 6`. -/
theorem c3_counterexample :
    assign_enum_entries [("A", some 5), ("B", some 1), ("C", none)] =
      ([("A", 5), ("B", 1), ("C", 6)], 6) ∧ (6 : Nat) ≠ 1 + 1 := by
  constructor
  · rfl
  · decide

/-- Claim C3, amended: entries keep declaration order (same names in the same
order); an entry with an explicit value receives that value; an entry
without an explicit value receives the maximum of all previously assigned
values plus one (not the previous entry's value plus one), the first entry
defaulting to 0; in particular `{A = 5, B}` yields `B = 6`. -/
theorem c3_enum_entry_values (pre post : List (String × Option Nat)) (nm : String)
    (v : Nat) :
    ((assign_enum_entries (pre ++ (nm, none) :: post)).1.map Prod.fst =
      (pre ++ (nm, none) :: post).map Prod.fst) ∧
    (((assign_enum_entries (pre ++ (nm, none) :: post)).1.map Prod.snd).getD pre.length 0 =
      if pre.isEmpty then 0
      else ((assign_enum_entries pre).1.map Prod.snd).foldl max 0 + 1) ∧
    (((assign_enum_entries (pre ++ (nm, some v) :: post)).1.map Prod.snd).getD
        pre.length 0 = v) ∧
    assign_enum_entries [("A", some 5), ("B", none)] = ([("A", 5), ("B", 6)], 6) := by
  refine ⟨?_, ?_, ?_, by rfl⟩
  · have h := assign_enum_entries_from_names (pre ++ (nm, none) :: post) [] 0
    simpa [assign_enum_entries] using h
  · exact assign_enum_entries_at pre post nm none
  · exact assign_enum_entries_at pre post nm (some v)

/-- Claim C4 (code bug): a typed message format with a field of array type
(descriptor `u8[4]`, which resolves to an array of 4 unsigned 8-bit
integers) drives `build_attribute` into its `Type::Array => todo!()` arm:
compilation aborts with the unhandled-case fault, which is neither a
successful flattening nor one of the named structured errors
(`InvalidType` / `InvalidRange` / `UndefinedType`). -/
theorem c4_array_todo_eval :
    resolve_type [] "u8[4]".toList = .ok (.array 4 (.primitive (.unsignedInt 8))) ∧
    compile_message_signals [] "m" (.types [("u8[4]", "x")]) = .error .panicTodo ∧
    (∀ msg, CompileError.panicTodo ≠ .invalidType msg ∧
      CompileError.panicTodo ≠ .invalidRange msg ∧
      CompileError.panicTodo ≠ .undefinedType msg) := by
  refine ⟨by decide, by decide, ?_⟩
  intro msg
  refine ⟨?_, ?_, ?_⟩ <;> intro h <;> exact CompileError.noConfusion h

/-- Ceiling division by 8 as the source's `(m + 8 - 1) / 8` idiom. -/
theorem nat_ceil_div_eight (a : Nat) :
    ⌈(a : ℚ) / 8⌉ = (((a + 7) / 8 : Nat) : ℤ) := by
  have h8 : (0 : ℚ) < 8 := by norm_num
  have hq1 : 8 * ((a + 7) / 8) ≤ a + 7 := by omega
  have hq2 : a ≤ 8 * ((a + 7) / 8) := by omega
  have hq1q : (8 : ℚ) * (((a + 7) / 8 : Nat) : ℚ) ≤ (a : ℚ) + 7 := by exact_mod_cast hq1
  have hq2q : (a : ℚ) ≤ 8 * (((a + 7) / 8 : Nat) : ℚ) := by exact_mod_cast hq2
  rw [Int.ceil_eq_iff]
  constructor
  · rw [lt_div_iff₀ h8, Int.cast_natCast]
    linarith
  · rw [div_le_iff₀ h8, Int.cast_natCast]
    linarith

set_option maxRecDepth 4000 in
/-- Claim C6 counterexample: a compiled message with 256 raw signals of 8 bits
each spans `m = 2048` bits, so the claim requires DLC
`ceil(2048 / 8) = 256`; the `as u8` cast of line 784 truncates it to 0. -/
theorem c6_counterexample :
    compute_dlc (compile_raw_signals "m"
      (List.replicate 256 ⟨"s", SignalType.unsignedInt 8, 0⟩) 0) = 0 ∧
    (max_bit (compile_raw_signals "m"
      (List.replicate 256 ⟨"s", SignalType.unsignedInt 8, 0⟩) 0) + 7) / 8 = 256 := by
  constructor <;> rfl

/-- Claim C6, amended: the byte length equals `ceil(m / 8)` truncated to 8
bits (`mod 256`, the `as u8` cast), where `m = max_bit` is the maximum of
`offset + width` over the message's signals (`0` with no signals); whenever
`m ≤ 2040` the truncation is the identity and the DLC is exactly
`⌈m / 8⌉`; a message with no signals gets DLC 0. -/
theorem c6_dlc (sigs : List Signal) :
    compute_dlc sigs = ((max_bit sigs + 7) / 8) % 2 ^ 8 ∧
    (max_bit sigs ≤ 2040 → (compute_dlc sigs : ℤ) = ⌈(max_bit sigs : ℚ) / 8⌉) ∧
    (sigs = [] → compute_dlc sigs = 0) := by
  refine ⟨rfl, ?_, ?_⟩
  · intro h
    rw [nat_ceil_div_eight]
    have : (max_bit sigs + 8 - 1) / 8 % 2 ^ 8 = (max_bit sigs + 7) / 8 := by omega
    unfold compute_dlc
    rw [this]
  · intro h
    subst h
    rfl

/-- Claim C6 witness: the claim's 29-bit example — signals of widths 13 and 16
— gets DLC 4, which agrees with `⌈29 / 8⌉`. -/
theorem c6_dlc_witness :
    max_bit (compile_raw_signals "m"
      [⟨"a", SignalType.unsignedInt 13, 0⟩, ⟨"b", SignalType.unsignedInt 16, 0⟩] 0) = 29 ∧
    compute_dlc (compile_raw_signals "m"
      [⟨"a", SignalType.unsignedInt 13, 0⟩, ⟨"b", SignalType.unsignedInt 16, 0⟩] 0) = 4 ∧
    ((compute_dlc (compile_raw_signals "m"
        [⟨"a", SignalType.unsignedInt 13, 0⟩, ⟨"b", SignalType.unsignedInt 16, 0⟩] 0) : ℤ) =
      ⌈(max_bit (compile_raw_signals "m"
        [⟨"a", SignalType.unsignedInt 13, 0⟩, ⟨"b", SignalType.unsignedInt 16, 0⟩] 0) : ℚ) / 8⌉) :=
  ⟨by decide, by decide,
    (c6_dlc (compile_raw_signals "m"
      [⟨"a", SignalType.unsignedInt 13, 0⟩, ⟨"b", SignalType.unsignedInt 16, 0⟩] 0)).2.1
      (by decide)⟩

/-- Claim C7: for `1 ≤ N ≤ 64`, the decimal rule of `resolve_type` fails with
`InvalidRange` exactly when `min ≥ max`, and otherwise yields a Decimal of
`N` bits with `offset = min` and `scale = (max - min) / (2^N - 1)`, so that
the affine decode `value = raw * scale + offset` maps raw 0 to `min` and the
maximal raw value `2^N - 1` to `max` (exactly, in the exact-rational model
of `f64`). -/
theorem c7_decimal_resolution (size : Nat) (mn mx : ℚ)
    (h1 : 1 ≤ size) (h2 : size ≤ 64) :
    (decimal_rule size mn mx =
        some (.error (.invalidRange "invalid decimal range min has to be less than max")) ↔
      mn ≥ mx) ∧
    (mn < mx →
      decimal_rule size mn mx =
        some (.ok (.primitive (.decimal size mn ((mx - mn) / (2 ^ size - 1))))) ∧
      (0 : ℚ) * ((mx - mn) / (2 ^ size - 1)) + mn = mn ∧
      ((2 : ℚ) ^ size - 1) * ((mx - mn) / (2 ^ size - 1)) + mn = mx) := by
  have hpow : ((2 : ℚ) ^ size - 1) ≠ 0 := by
    have h21 : (2 : ℚ) ^ 1 ≤ 2 ^ size := by
      apply pow_le_pow_right₀ (by norm_num) h1
    have hge2 : (2 : ℚ) ^ size ≥ 2 := by simpa using h21
    intro hc
    rw [sub_eq_zero] at hc
    rw [hc] at hge2
    norm_num at hge2
  constructor
  · constructor
    · intro he
      by_contra hlt
      push_neg at hlt
      unfold decimal_rule at he
      rw [if_neg (by exact not_le.mpr hlt)] at he
      simp only [if_pos h2] at he
      simp at he
    · intro hge
      unfold decimal_rule
      rw [if_pos hge]
  · intro hlt
    refine ⟨?_, ?_, ?_⟩
    · unfold decimal_rule
      rw [if_neg (by exact not_le.mpr hlt)]
      simp only [if_pos h2]
    · rw [zero_mul, zero_add]
    · rw [mul_comm, div_mul_cancel₀ _ hpow, sub_add_cancel]

/-- Claim C7 witness: `d8<0..100>` — size 8, min 0, max 100. -/
theorem c7_decimal_resolution_witness :
    ((1 : Nat) ≤ 8 ∧ (8 : Nat) ≤ 64 ∧ (0 : ℚ) < 100) ∧
    (decimal_rule 8 0 100 =
        some (.ok (.primitive (.decimal 8 0 ((100 - 0) / (2 ^ 8 - 1))))) ∧
      (0 : ℚ) * ((100 - 0) / (2 ^ 8 - 1)) + 0 = 0 ∧
      ((2 : ℚ) ^ 8 - 1) * ((100 - 0) / (2 ^ 8 - 1)) + 0 = 100) :=
  ⟨by norm_num,
    (c7_decimal_resolution 8 0 100 (by norm_num) (by norm_num)).2 (by norm_num)⟩

/-- The function `first_occurrences` only depends on membership in `seen`. -/
theorem first_occurrences_congr (l : List String) :
    ∀ s1 s2, (∀ x, x ∈ s1 ↔ x ∈ s2) →
      first_occurrences s1 l = first_occurrences s2 l := by
  induction l with
  | nil => intro s1 s2 _; rfl
  | cons x xs ih =>
    intro s1 s2 hmem
    simp only [first_occurrences]
    by_cases hx : x ∈ s1
    · rw [if_pos hx, if_pos ((hmem x).mp hx)]
      exact ih s1 s2 hmem
    · rw [if_neg hx, if_neg (fun hc => hx ((hmem x).mpr hc))]
      refine congrArg (x :: ·) (ih _ _ ?_)
      intro y
      simp [hmem y]

/-- Elements emitted by `first_occurrences` are not in `seen`, and the
emitted list has no duplicates. -/
theorem first_occurrences_spec (l : List String) :
    ∀ seen, (∀ x ∈ first_occurrences seen l, x ∉ seen) ∧
      (first_occurrences seen l).Nodup := by
  induction l with
  | nil => intro seen; simp [first_occurrences]
  | cons x xs ih =>
    intro seen
    simp only [first_occurrences]
    by_cases hx : x ∈ seen
    · rw [if_pos hx]
      exact ih seen
    · rw [if_neg hx]
      obtain ⟨hnotin, hnodup⟩ := ih (x :: seen)
      refine ⟨?_, ?_⟩
      · intro y hy
        rcases List.mem_cons.mp hy with hy | hy
        · subst hy; exact hx
        · intro hc
          exact hnotin y hy (List.mem_cons_of_mem _ hc)
      · refine List.nodup_cons.mpr ⟨?_, hnodup⟩
        intro hc
        exact hnotin x hc (List.mem_cons_self _ _)

/-- The `create_node` fold invariant: folding declarations from any starting
node list appends exactly the first occurrences of names not yet present. -/
theorem run_creates_general (names : List String) :
    ∀ ns : List NodeBuilder,
      (names.foldl (fun ns nm => (create_node ns nm).1) ns).map NodeBuilder.name =
        ns.map NodeBuilder.name ++
          first_occurrences (ns.map NodeBuilder.name) names := by
  induction names with
  | nil => intro ns; simp [first_occurrences]
  | cons nm rest ih =>
    intro ns
    simp only [List.foldl_cons, first_occurrences]
    rcases hf : ns.find? (fun n => n.name = nm) with _ | nd
    · have hnotin : nm ∉ ns.map NodeBuilder.name := by
        intro hin
        obtain ⟨n, hn, hname⟩ := List.mem_map.mp hin
        have := List.find?_eq_none.mp hf n hn
        simp [hname] at this
      rw [if_neg hnotin]
      have hstep : (create_node ns nm).1 = ns ++ [⟨nm⟩] := by
        unfold create_node
        rw [hf]
      rw [hstep, ih]
      have hmaps : (ns ++ [(⟨nm⟩ : NodeBuilder)]).map NodeBuilder.name =
          ns.map NodeBuilder.name ++ [nm] := by simp [NodeBuilder.name]
      rw [hmaps, first_occurrences_congr rest (ns.map NodeBuilder.name ++ [nm])
        (nm :: ns.map NodeBuilder.name)
        (by intro y; simp only [List.mem_append, List.mem_cons, List.mem_singleton]; tauto)]
      simp
    · have hin : nm ∈ ns.map NodeBuilder.name := by
        have hmem := List.mem_of_find?_eq_some hf
        have hp := List.find?_some hf
        simp only [decide_eq_true_eq] at hp
        exact List.mem_map.mpr ⟨nd, hmem, hp⟩
      rw [if_pos hin]
      have hstep : (create_node ns nm).1 = ns := by
        unfold create_node
        rw [hf]
      rw [hstep, ih]

/-- Claim C10: `create_node` returns the existing builder (the first with the
requested name) and leaves the node list unchanged when one exists; after
any sequence of `create_node` calls starting from an empty list, the node
list holds exactly one node per distinct name, in first-call order. -/
theorem c10_create_node (names : List String) :
    (∀ (nodes : List NodeBuilder) (nm : String) (nd : NodeBuilder),
      nodes.find? (fun n => n.name = nm) = some nd →
        create_node nodes nm = (nodes, nd)) ∧
    (run_creates names).map NodeBuilder.name = first_occurrences [] names ∧
    ((run_creates names).map NodeBuilder.name).Nodup := by
  refine ⟨?_, ?_, ?_⟩
  · intro nodes nm nd h
    unfold create_node
    rw [h]
  · have h := run_creates_general names []
    simpa [run_creates] using h
  · have h := run_creates_general names []
    have h2 : (run_creates names).map NodeBuilder.name = first_occurrences [] names := by
      simpa [run_creates] using h
    rw [h2]
    exact (first_occurrences_spec names []).2

/-- Claim C10 witness: calling `create_node` on a list already holding node
`"a"` returns that node and the unchanged list; the call sequence
`a, b, a` yields the node list `[a, b]`. -/
theorem c10_create_node_witness :
    create_node [⟨"a"⟩] "a" = ([⟨"a"⟩], ⟨"a"⟩) ∧
    (run_creates ["a", "b", "a"]).map NodeBuilder.name =
      first_occurrences [] ["a", "b", "a"] ∧
    first_occurrences [] ["a", "b", "a"] = ["a", "b"] :=
  ⟨(c10_create_node []).1 [⟨"a"⟩] "a" ⟨"a"⟩ (by decide),
    (c10_create_node ["a", "b", "a"]).2.1, by decide⟩

/-! ## Signal contiguity (claim C5) -/

/-- Total bit width of a signal list. -/
def signals_width (l : List Signal) : Nat := (l.map Signal.size).sum

/-- A signal list is contiguous from offset `off`: each signal sits exactly
at the running offset and advances it by its width. -/
def contiguous_from (off : Nat) : List Signal → Prop
  | [] => True
  | s :: rest => s.offset = off ∧ contiguous_from (off + s.size) rest

theorem contiguous_from_append {a : List Signal} :
    ∀ {off : Nat} {b : List Signal}, contiguous_from off a →
      contiguous_from (off + signals_width a) b → contiguous_from off (a ++ b) := by
  induction a with
  | nil =>
    intro off b _ hb
    simpa [signals_width] using hb
  | cons s rest ih =>
    intro off b ha hb
    obtain ⟨h1, h2⟩ := ha
    refine ⟨h1, ih h2 ?_⟩
    have : off + s.size + signals_width rest = off + signals_width (s :: rest) := by
      simp [signals_width]
      omega
    rw [this]
    exact hb

mutual
/-- The flattening `build_attribute` always lays its emitted signals out contiguously from
the incoming offset and returns the advanced offset. -/
theorem build_attribute_contig (ty : Ty) :
    ∀ name off pfx enc sigs off2,
      build_attribute ty name off pfx = .ok (enc, sigs, off2) →
      contiguous_from off sigs ∧ off2 = off + signals_width sigs := by
  match ty with
  | .primitive st =>
    intro name off pfx enc sigs off2 h
    simp only [build_attribute, Except.ok.injEq, Prod.mk.injEq] at h
    obtain ⟨-, hsigs, hoff⟩ := h
    subst hsigs
    subst hoff
    exact ⟨⟨rfl, trivial⟩, by simp [signals_width]⟩
  | .struct structName attribs =>
    intro name off pfx enc sigs off2 h
    simp only [build_attribute] at h
    split at h
    · rename_i encs0 sigs0 off0 heq
      simp only [Except.ok.injEq, Prod.mk.injEq] at h
      obtain ⟨-, hsigs, hoff⟩ := h
      subst hsigs
      subst hoff
      exact build_attributes_contig attribs _ _ _ _ _ heq
    · exact absurd h (by simp)
  | .enum enumName _size entries =>
    intro name off pfx enc sigs off2 h
    simp only [build_attribute, Except.ok.injEq, Prod.mk.injEq] at h
    obtain ⟨-, hsigs, hoff⟩ := h
    subst hsigs
    subst hoff
    exact ⟨⟨rfl, trivial⟩, by simp [signals_width]⟩
  | .array len elemTy =>
    intro name off pfx enc sigs off2 h
    simp only [build_attribute] at h
    exact absurd h (by simp)

/-- The struct-attribute loop threads the offset contiguously. -/
theorem build_attributes_contig (attribs : List (String × Ty)) :
    ∀ pfx off encs sigs off2,
      build_attributes attribs pfx off = .ok (encs, sigs, off2) →
      contiguous_from off sigs ∧ off2 = off + signals_width sigs := by
  match attribs with
  | [] =>
    intro pfx off encs sigs off2 h
    simp only [build_attributes, Except.ok.injEq, Prod.mk.injEq] at h
    obtain ⟨-, hsigs, hoff⟩ := h
    subst hsigs
    subst hoff
    exact ⟨trivial, by simp [signals_width]⟩
  | (attribName, attribTy) :: rest =>
    intro pfx off encs sigs off2 h
    simp only [build_attributes] at h
    split at h
    · rename_i enc1 sigs1 off1 heq1
      split at h
      · rename_i encs2 sigs2 off2' heq2
        simp only [Except.ok.injEq, Prod.mk.injEq] at h
        obtain ⟨-, hsigs, hoff⟩ := h
        subst hsigs
        subst hoff
        obtain ⟨hc1, hw1⟩ := build_attribute_contig attribTy _ _ _ _ _ _ heq1
        obtain ⟨hc2, hw2⟩ := build_attributes_contig rest _ _ _ _ _ heq2
        subst hw1
        constructor
        · exact contiguous_from_append hc1 hc2
        · rw [hw2]
          simp [signals_width]
          omega
      · exact absurd h (by simp)
    · exact absurd h (by simp)
end

/-- Raw-signal compilation lays signals out contiguously from the given
offset. -/
theorem compile_raw_signals_contig (msgName : String) (l : List Signal) :
    ∀ off, contiguous_from off (compile_raw_signals msgName l off) := by
  induction l with
  | nil => intro off; trivial
  | cons s rest ih =>
    intro off
    exact ⟨rfl, ih (off + s.size)⟩

/-- The typed-field loop lays signals out contiguously from the given
offset. -/
theorem compile_typed_fields_contig (types : List Ty) (fields : List (String × String)) :
    ∀ off encs sigs off2,
      compile_typed_fields types fields off = .ok (encs, sigs, off2) →
      contiguous_from off sigs := by
  induction fields with
  | nil =>
    intro off encs sigs off2 h
    simp only [compile_typed_fields, Except.ok.injEq, Prod.mk.injEq] at h
    obtain ⟨-, hsigs, -⟩ := h
    subst hsigs
    trivial
  | cons fld rest ih =>
    intro off encs sigs off2 h
    match fld with
    | (typeName, varName) =>
      simp only [compile_typed_fields] at h
      split at h
      · rename_i tyRef heq0
        split at h
        · rename_i enc1 sigs1 off1 heq1
          split at h
          · rename_i encs2 sigs2 off2' heq2
            simp only [Except.ok.injEq, Prod.mk.injEq] at h
            obtain ⟨-, hsigs, -⟩ := h
            subst hsigs
            obtain ⟨hc1, hw1⟩ := build_attribute_contig tyRef _ _ _ _ _ _ heq1
            subst hw1
            exact contiguous_from_append hc1 (ih _ _ _ _ heq2)
          · exact absurd h (by simp)
        · exact absurd h (by simp)
      · exact absurd h (by simp)

/-- Any successfully compiled signal list, whatever the format, is
contiguous from offset 0. -/
theorem compile_message_signals_contig (types : List Ty) (msgName : String)
    (fmt : MessageFormat) (sigs : List Signal)
    (h : compile_message_signals types msgName fmt = .ok sigs) :
    contiguous_from 0 sigs := by
  match fmt with
  | .signals l =>
    simp only [compile_message_signals, Except.ok.injEq] at h
    subst h
    exact compile_raw_signals_contig msgName l 0
  | .types fields =>
    simp only [compile_message_signals] at h
    split at h
    · rename_i encs0 sigs0 off0 heq
      simp only [Except.ok.injEq] at h
      subst h
      exact compile_typed_fields_contig types fields _ _ _ _ heq
    · exact absurd h (by simp)
  | .empty =>
    simp only [compile_message_signals, Except.ok.injEq] at h
    subst h
    trivial

/-- Contiguity in indexed form: consecutive signals satisfy
`offset + width = next offset`. -/
theorem contiguous_from_get? {l : List Signal} :
    ∀ {off i} {si si1 : Signal}, contiguous_from off l →
      l.get? i = some si → l.get? (i + 1) = some si1 →
      si.offset + si.size = si1.offset := by
  induction l with
  | nil =>
    intro off i si si1 _ h1 _
    simp at h1
  | cons s rest ih =>
    intro off i si si1 hc h1 h2
    obtain ⟨hoff, hrest⟩ := hc
    cases i with
    | zero =>
      simp only [List.get?_cons_zero, Option.some.injEq] at h1
      subst h1
      simp only [List.get?_cons_succ] at h2
      match rest, hrest, h2 with
      | r :: rest2, ⟨hr, _⟩, h2 =>
        simp only [List.get?_cons_zero, Option.some.injEq] at h2
        subst h2
        rw [hr, hoff]
    | succ j =>
      simp only [List.get?_cons_succ] at h1 h2
      exact ih hrest h1 h2

/-- Claim C5: for every message compiled by `build()`, whichever format it
uses (raw signals, typed, or empty), the flat signal list in emission order
starts at offset 0 and satisfies
`signal[i].offset + signal[i].width = signal[i+1].offset` for all
consecutive pairs: the signals occupy a contiguous, non-overlapping bit
region starting at 0. -/
theorem c5_signal_contiguity (types : List Ty) (msgName : String)
    (fmt : MessageFormat) (sigs : List Signal)
    (h : compile_message_signals types msgName fmt = .ok sigs) :
    (∀ i (si si1 : Signal), sigs.get? i = some si → sigs.get? (i + 1) = some si1 →
      si.offset + si.size = si1.offset) ∧
    (∀ s rest, sigs = s :: rest → s.offset = 0) := by
  have hc := compile_message_signals_contig types msgName fmt sigs h
  constructor
  · intro i si si1 h1 h2
    exact contiguous_from_get? hc h1 h2
  · intro s rest hs
    subst hs
    exact hc.1

/-- Claim C5 witness: a raw-format message with a 13-bit and a 16-bit signal
compiles to signals at offsets 0 and 13; the consecutive-offset equation and
the zero start hold there. -/
theorem c5_signal_contiguity_witness :
    ((⟨"m_a", SignalType.unsignedInt 13, 0⟩ : Signal).offset +
        (⟨"m_a", SignalType.unsignedInt 13, 0⟩ : Signal).size =
      (⟨"m_b", SignalType.signedInt 16, 13⟩ : Signal).offset) ∧
    (⟨"m_a", SignalType.unsignedInt 13, 0⟩ : Signal).offset = 0 :=
  ⟨(c5_signal_contiguity [] "m"
      (.signals [⟨"a", SignalType.unsignedInt 13, 7⟩, ⟨"b", SignalType.signedInt 16, 3⟩])
      [⟨"m_a", SignalType.unsignedInt 13, 0⟩, ⟨"m_b", SignalType.signedInt 16, 13⟩]
      (by decide)).1 0
      ⟨"m_a", SignalType.unsignedInt 13, 0⟩ ⟨"m_b", SignalType.signedInt 16, 13⟩
      (by decide) (by decide),
    (c5_signal_contiguity [] "m"
      (.signals [⟨"a", SignalType.unsignedInt 13, 7⟩, ⟨"b", SignalType.signedInt 16, 3⟩])
      [⟨"m_a", SignalType.unsignedInt 13, 0⟩, ⟨"m_b", SignalType.signedInt 16, 13⟩]
      (by decide)).2
      ⟨"m_a", SignalType.unsignedInt 13, 0⟩ [⟨"m_b", SignalType.signedInt 16, 13⟩] rfl⟩

/-! ## Correctness of the DFS post-order (claim C9) -/

/-- Visited flag of node `u` (out-of-range reads as unvisited, matching the
`getD` in `dfsList`). -/
def visAt (visited : List Bool) (u : Nat) : Bool := visited.getD u false

theorem visAt_set_mono {visited : List Bool} {u x : Nat}
    (h : visAt visited x = true) : visAt (visited.set u true) x = true := by
  unfold visAt at *
  rw [List.getD_eq_getElem?_getD] at *
  rcases eq_or_ne u x with rfl | hne
  · rcases Nat.lt_or_ge u visited.length with hlt | hge
    · rw [List.getElem?_set_eq hlt]
      rfl
    · rw [List.set_eq_of_length_le hge]
      exact h
  · rw [List.getElem?_set_ne hne]
    exact h

theorem visAt_set_self {visited : List Bool} {u : Nat} (h : u < visited.length) :
    visAt (visited.set u true) u = true := by
  unfold visAt
  rw [List.getD_eq_getElem?_getD, List.getElem?_set_eq h]
  rfl

theorem visAt_of_set_false {visited : List Bool} {u x : Nat}
    (h : visAt (visited.set u true) x = false) : visAt visited x = false := by
  by_contra hc
  rw [Bool.not_eq_false] at hc
  rw [visAt_set_mono hc] at h
  exact Bool.noConfusion h

theorem visAt_set_cases {visited : List Bool} {u x : Nat}
    (h : visAt (visited.set u true) x = true) : x = u ∨ visAt visited x = true := by
  rcases eq_or_ne x u with rfl | hne
  · exact Or.inl rfl
  · right
    unfold visAt at *
    rw [List.getD_eq_getElem?_getD] at *
    rw [List.getElem?_set_ne (Ne.symm hne)] at h
    exact h

theorem visAt_replicate_false {n u : Nat} :
    visAt (List.replicate n false) u = false := by
  unfold visAt
  rw [List.getD_eq_getElem?_getD]
  rcases Nat.lt_or_ge u n with hlt | hge
  · rw [List.getElem?_replicate_of_lt hlt]
    rfl
  · rw [List.getElem?_eq_none (by simpa using hge)]
    rfl

/-- A chain followed by its endpoint: every member of the chain reaches the
endpoint through dependency edges. -/
theorem chain'_concat_transGen {r : Nat → Nat → Prop} :
    ∀ (l : List Nat) (c : Nat), List.Chain' r (l ++ [c]) →
      ∀ v ∈ l, Relation.TransGen r v c := by
  intro l
  induction l with
  | nil => intro c _ v hv; simp at hv
  | cons a t ih =>
    intro c hch v hv
    rw [List.cons_append, List.chain'_cons'] at hch
    obtain ⟨hhead, htail⟩ := hch
    rcases List.mem_cons.mp hv with rfl | hv'
    · cases t with
      | nil => exact Relation.TransGen.single (hhead c (by simp))
      | cons b t2 =>
        exact Relation.TransGen.head (hhead b (by simp)) (ih c htail b (by simp))
    · exact ih c htail v hv'

/-- Bound on a found index (general over the running start index). -/
theorem findIdx?_some_lt_aux {α : Type} (p : α → Bool) :
    ∀ (l : List α) (s i : Nat), List.findIdx? p l s = some i → i < s + l.length := by
  intro l
  induction l with
  | nil => intro s i h; simp [List.findIdx?] at h
  | cons a t ih =>
    intro s i h
    rw [List.findIdx?_cons] at h
    split at h
    · simp only [Option.some.injEq] at h
      subst h
      simp
    · have := ih (s + 1) i h
      simp only [List.length_cons]
      omega

/-- Bound on a found index. -/
theorem findIdx?_some_lt {α : Type} (p : α → Bool) (l : List α) (i : Nat)
    (h : l.findIdx? p = some i) : i < l.length := by
  have := findIdx?_some_lt_aux p l 0 i h
  omega

/-- Invariant of the DFS state: `stack` is the post-order output so far,
`gray` the path of nodes currently being expanded (each stepping to the
next). -/
structure DfsInv (adj : List (List Nat)) (visited : List Bool)
    (stack gray : List Nat) : Prop where
  stack_visited : ∀ u ∈ stack, visAt visited u = true
  visited_cases : ∀ u, visAt visited u = true → u ∈ stack ∨ u ∈ gray
  gray_visited : ∀ u ∈ gray, visAt visited u = true
  stack_nodup : stack.Nodup
  stack_lt : ∀ u ∈ stack, u < adj.length
  stack_deps : ∀ u ∈ stack, ∀ v, step_rel adj u v →
    v ∈ stack ∧ stack.indexOf v < stack.indexOf u
  gray_chain : List.Chain' (step_rel adj) gray

/-- Main invariant preservation for the DFS worklist: starting from a state
satisfying `DfsInv` (with `gray` the current expansion path, linked to the
worklist), the DFS visits every pending node, only appends to the stack
(and only nodes that were unvisited), and re-establishes the invariant with
the same `gray`.  Acyclicity is what rules out an edge from the node being
pushed back into the expansion path. -/
theorem dfsList_spec (adj : List (List Nat)) (hacyc : GraphAcyclic adj)
    (hadjr : ∀ u v, step_rel adj u v → v < adj.length) :
    ∀ (pending : List Nat) (visited : List Bool) (stack : List Nat),
      visited.length = adj.length →
      (∀ x ∈ pending, x < adj.length) →
      ∀ gray : List Nat,
        DfsInv adj visited stack gray →
        (∀ g, gray.getLast? = some g → ∀ x ∈ pending, step_rel adj g x) →
        ((∀ u, visAt visited u = true →
            visAt (dfsList adj pending visited stack).1.1 u = true) ∧
         (∀ x ∈ pending, visAt (dfsList adj pending visited stack).1.1 x = true) ∧
         (∃ l, (dfsList adj pending visited stack).1.2 = stack ++ l ∧
            ∀ x ∈ l, visAt visited x = false) ∧
         DfsInv adj (dfsList adj pending visited stack).1.1
           (dfsList adj pending visited stack).1.2 gray) := by
  intro pending visited stack
  induction pending, visited, stack using dfsList.induct adj with
  | case1 visited stack =>
    intro hlen hpend gray hinv hpl
    have hred : (dfsList adj [] visited stack).1 = (visited, stack) := by
      simp [dfsList]
    rw [hred]
    refine ⟨fun u hu => hu, by simp, ⟨[], by simp, by simp⟩, hinv⟩
  | case2 current rest visited stack hv ih =>
    intro hlen hpend gray hinv hpl
    have hred : (dfsList adj (current :: rest) visited stack).1 =
        (dfsList adj rest visited stack).1 := by
      simp only [dfsList]
      rw [dif_pos hv]
    rw [hred]
    obtain ⟨hmono, hpendv, hext, hinv2⟩ :=
      ih hlen (fun x hx => hpend x (List.mem_cons_of_mem _ hx)) gray hinv
        (fun g hg x hx => hpl g hg x (List.mem_cons_of_mem _ hx))
    refine ⟨hmono, ?_, hext, hinv2⟩
    intro x hx
    rcases List.mem_cons.mp hx with rfl | hx'
    · exact hmono x hv
    · exact hpendv x hx'
  | case3 current rest visited stack hv hlt v2 s2 hp1 heq1 v3 s3 hp2 heq2 ih1 ih2 =>
    intro hlen hpend gray hinv hpl
    have hred : (dfsList adj (current :: rest) visited stack).1 = (v3, s3) := by
      simp only [dfsList]
      rw [dif_neg hv, dif_pos hlt, heq1, heq2]
    rw [hred]
    have hcin : current ∈ current :: rest := List.mem_cons_self _ _
    have hclt : current < adj.length := hpend current hcin
    have hvfalse : visAt visited current = false := by
      unfold visAt
      exact Bool.not_eq_true _ ▸ hv
    -- the inner DFS run over `adj current` with expansion path `gray ++ [current]`
    have hinv1pre : DfsInv adj (visited.set current true) stack (gray ++ [current]) := by
      refine ⟨?_, ?_, ?_, hinv.stack_nodup, hinv.stack_lt, ?_, ?_⟩
      · exact fun u hu => visAt_set_mono (hinv.stack_visited u hu)
      · intro u hu
        rcases visAt_set_cases hu with rfl | hu'
        · exact Or.inr (by simp)
        · rcases hinv.visited_cases u hu' with h | h
          · exact Or.inl h
          · exact Or.inr (by simp [h])
      · intro u hu
        rcases List.mem_append.mp hu with h | h
        · exact visAt_set_mono (hinv.gray_visited u h)
        · rcases List.mem_singleton.mp h with rfl
          exact visAt_set_self hlt
      · exact hinv.stack_deps
      · rw [List.chain'_append]
        refine ⟨hinv.gray_chain, List.chain'_singleton _, ?_⟩
        intro x hx y hy
        simp only [List.head?_cons, Option.mem_def, Option.some.injEq] at hy
        subst hy
        exact hpl x hx current hcin
    have hlen1 : (visited.set current true).length = adj.length := by
      rw [List.length_set]; exact hlen
    have hpend1 : ∀ x ∈ adj.getD current [], x < adj.length := by
      intro x hx
      exact hadjr current x hx
    have hpl1 : ∀ g, (gray ++ [current]).getLast? = some g →
        ∀ x ∈ adj.getD current [], step_rel adj g x := by
      intro g hg x hx
      rw [List.getLast?_concat] at hg
      rcases Option.some.injEq .. ▸ hg with rfl
      exact hx
    obtain ⟨hmono1, hpendv1, ⟨l1, hsext1, hl1false⟩, hinv1⟩ :=
      ih1 hlen1 hpend1 (gray ++ [current]) hinv1pre hpl1
    rw [heq1] at hmono1 hpendv1 hsext1 hinv1
    simp only at hmono1 hpendv1 hsext1 hinv1
    -- current was unvisited, so it is in neither the old stack nor the new part
    have hcnotstack : current ∉ stack := by
      intro hc
      rw [hinv.stack_visited current hc] at hvfalse
      exact Bool.noConfusion hvfalse
    have hcnotl1 : current ∉ l1 := by
      intro hc
      have := hl1false current hc
      rw [visAt_set_self hlt] at this
      exact Bool.noConfusion this
    have hcnots2 : current ∉ s2 := by
      rw [hsext1]
      intro hc
      rcases List.mem_append.mp hc with h | h
      · exact hcnotstack h
      · exact hcnotl1 h
    -- every dependency of `current` is already on the stack `s2`
    have hdeps : ∀ v, step_rel adj current v → v ∈ s2 := by
      intro v hstep
      have hvvis : visAt v2 v = true := hpendv1 v hstep
      rcases hinv1.visited_cases v hvvis with h | h
      · exact h
      · exfalso
        rcases List.mem_append.mp h with h' | h'
        · have htg : Relation.TransGen (step_rel adj) v current :=
            chain'_concat_transGen gray current hinv1.gray_chain v h'
          exact hacyc current (Relation.TransGen.head hstep htg)
        · have hvc : v = current := List.mem_singleton.mp h'
          rw [hvc] at hstep
          exact hacyc current (Relation.TransGen.single hstep)
    -- invariant for the continuation with `current` pushed
    have hvc2 : visAt v2 current = true := hmono1 current (visAt_set_self hlt)
    have hinv2pre : DfsInv adj v2 (s2 ++ [current]) gray := by
      refine ⟨?_, ?_, ?_, ?_, ?_, ?_, hinv.gray_chain⟩
      · intro u hu
        rcases List.mem_append.mp hu with h | h
        · exact hinv1.stack_visited u h
        · rcases List.mem_singleton.mp h with rfl
          exact hvc2
      · intro u hu
        rcases hinv1.visited_cases u hu with h | h
        · exact Or.inl (List.mem_append_left _ h)
        · rcases List.mem_append.mp h with h' | h'
          · exact Or.inr h'
          · rcases List.mem_singleton.mp h' with rfl
            exact Or.inl (List.mem_append_right _ (by simp))
      · intro u hu
        exact hinv1.gray_visited u (List.mem_append_left _ hu)
      · rw [List.nodup_append]
        refine ⟨hinv1.stack_nodup, List.nodup_singleton _, ?_⟩
        intro a ha hb
        rcases List.mem_singleton.mp hb with rfl
        exact hcnots2 ha
      · intro u hu
        rcases List.mem_append.mp hu with h | h
        · exact hinv1.stack_lt u h
        · rcases List.mem_singleton.mp h with rfl
          exact hclt
      · intro u hu v hstep
        rcases List.mem_append.mp hu with h | h
        · obtain ⟨hvmem, hvord⟩ := hinv1.stack_deps u h v hstep
          refine ⟨List.mem_append_left _ hvmem, ?_⟩
          rw [List.indexOf_append_of_mem hvmem, List.indexOf_append_of_mem h]
          exact hvord
        · rcases List.mem_singleton.mp h with rfl
          have hvmem : v ∈ s2 := hdeps v hstep
          refine ⟨List.mem_append_left _ hvmem, ?_⟩
          rw [List.indexOf_append_of_mem hvmem,
            List.indexOf_append_of_not_mem hcnots2]
          have := List.indexOf_lt_length.mpr hvmem
          simp only [List.indexOf_cons_self]
          omega
    have hlen2 : v2.length = adj.length := by
      have := hp1.2
      simp only at this
      rw [this, List.length_set]
      exact hlen
    have hpend2 : ∀ x ∈ rest, x < adj.length :=
      fun x hx => hpend x (List.mem_cons_of_mem _ hx)
    have hpl2 : ∀ g, gray.getLast? = some g → ∀ x ∈ rest, step_rel adj g x :=
      fun g hg x hx => hpl g hg x (List.mem_cons_of_mem _ hx)
    obtain ⟨hmono2, hpendv2, ⟨l2, hsext2, hl2false⟩, hinv2⟩ :=
      ih2 hlen2 hpend2 gray hinv2pre hpl2
    rw [heq2] at hmono2 hpendv2 hsext2 hinv2
    simp only at hmono2 hpendv2 hsext2 hinv2
    -- assemble the conclusions
    refine ⟨?_, ?_, ?_, hinv2⟩
    · intro u hu
      exact hmono2 u (hmono1 u (visAt_set_mono hu))
    · intro x hx
      rcases List.mem_cons.mp hx with rfl | hx'
      · exact hmono2 x hvc2
      · exact hpendv2 x hx'
    · refine ⟨l1 ++ [current] ++ l2, ?_, ?_⟩
      · rw [hsext2, hsext1]
        simp [List.append_assoc]
      · intro x hx
        rcases List.mem_append.mp hx with h | h
        · rcases List.mem_append.mp h with h' | h'
          · exact visAt_of_set_false (hl1false x h')
          · rcases List.mem_singleton.mp h' with rfl
            exact hvfalse
        · have hx2 : visAt v2 x = false := hl2false x h
          by_contra hc
          rw [Bool.not_eq_false] at hc
          rw [hmono1 x (visAt_set_mono hc)] at hx2
          exact Bool.noConfusion hx2
  | case4 current rest visited stack hv hnlt ih =>
    intro hlen hpend gray hinv hpl
    exfalso
    apply hnlt
    rw [hlen]
    exact hpend current (List.mem_cons_self _ _)

/-- Correctness of the full DFS driver: for an acyclic adjacency structure
with in-range edges, `topo_order` lists exactly the node indices, without
duplicates, and places every node strictly after all of its dependencies. -/
theorem topo_order_spec (adj : List (List Nat)) (hacyc : GraphAcyclic adj)
    (hadjr : ∀ u v, step_rel adj u v → v < adj.length) :
    (∀ u, u ∈ topo_order adj ↔ u < adj.length) ∧
    (topo_order adj).Nodup ∧
    (∀ u v, step_rel adj u v →
      (topo_order adj).indexOf v < (topo_order adj).indexOf u) := by
  have hinv0 : DfsInv adj (List.replicate adj.length false) [] [] := by
    refine ⟨?_, ?_, ?_, List.nodup_nil, ?_, ?_, List.chain'_nil⟩
    · intro u hu; simp at hu
    · intro u hu
      rw [visAt_replicate_false] at hu
      exact Bool.noConfusion hu
    · intro u hu; simp at hu
    · intro u hu; simp at hu
    · intro u hu; simp at hu
  obtain ⟨hmono, hpendv, ⟨l, hext, hlf⟩, hinvf⟩ :=
    dfsList_spec adj hacyc hadjr (List.range adj.length)
      (List.replicate adj.length false) [] (by simp)
      (by intro x hx; simpa using hx) [] hinv0 (by intro g hg; simp at hg)
  have htopo : topo_order adj =
      (dfsList adj (List.range adj.length) (List.replicate adj.length false) []).1.2 :=
    rfl
  have hcomplete : ∀ u, u < adj.length → u ∈ topo_order adj := by
    intro u hu
    have hv := hpendv u (List.mem_range.mpr hu)
    rcases hinvf.visited_cases u hv with h | h
    · rwa [htopo]
    · simp at h
  refine ⟨?_, ?_, ?_⟩
  · intro u
    constructor
    · intro hu
      rw [htopo] at hu
      exact hinvf.stack_lt u hu
    · exact hcomplete u
  · rw [htopo]
    exact hinvf.stack_nodup
  · intro u v hstep
    rcases Nat.lt_or_ge u adj.length with hu | hu
    · have humem : u ∈ topo_order adj := hcomplete u hu
      rw [htopo] at humem ⊢
      exact (hinvf.stack_deps u humem v hstep).2
    · exfalso
      unfold step_rel at hstep
      rw [List.getD_eq_default _ _ (by simpa using hu)] at hstep
      simp at hstep

theorem type_adj_lists_length (types : List Ty) :
    (type_adj_lists types).length = types.length := by
  simp [type_adj_lists]

/-- Indices accumulated by the struct-attribute dependency fold are
positions in the type list. -/
theorem type_adj_fold_lt (types : List Ty) :
    ∀ (attribs : List (String × Ty)) (acc : List Nat),
      (∀ x ∈ acc, x < types.length) →
      ∀ v ∈ attribs.foldl (fun acc a =>
          match types.findIdx? (fun t => Ty.beq t a.2) with
          | some adjIndex => acc ++ [adjIndex]
          | none => acc) acc,
        v < types.length := by
  intro attribs
  induction attribs with
  | nil => intro acc hacc v hv; exact hacc v (by simpa using hv)
  | cons a rest ih =>
    intro acc hacc v hv
    rw [List.foldl_cons] at hv
    rcases hfi : types.findIdx? (fun t => Ty.beq t a.2) with _ | j
    · rw [hfi] at hv
      exact ih acc hacc v hv
    · rw [hfi] at hv
      refine ih _ ?_ v hv
      intro x hx
      rcases List.mem_append.mp hx with h | h
      · exact hacc x h
      · rcases List.mem_singleton.mp h with rfl
        exact findIdx?_some_lt _ _ _ hfi

/-- Every edge of the structural-type dependency graph targets a position in
the type list. -/
theorem type_adj_lists_range (types : List Ty) :
    ∀ u v, step_rel (type_adj_lists types) u v →
      v < (type_adj_lists types).length := by
  intro u v hv
  unfold step_rel at hv
  rw [type_adj_lists_length]
  unfold type_adj_lists at hv
  rw [List.getD_eq_getElem?_getD, List.getElem?_map] at hv
  rcases hty : types[u]? with _ | ty
  · rw [hty] at hv
    simp at hv
  · rw [hty] at hv
    simp only [Option.map_some', Option.getD_some] at hv
    cases ty with
    | primitive st => simp at hv
    | enum n s e => simp at hv
    | array len elemTy =>
      simp only at hv
      rcases hfi : types.findIdx? (fun t => Ty.beq t elemTy) with _ | j
      · rw [hfi] at hv
        simp at hv
      · rw [hfi] at hv
        simp only [List.mem_singleton] at hv
        subst hv
        exact findIdx?_some_lt _ _ _ hfi
    | struct n attribs =>
      simp only at hv
      exact type_adj_fold_lt types attribs [] (by simp) v hv

/-- Indices accumulated by the builder-attribute dependency fold are
positions in the builder list. -/
theorem builder_attr_fold_lt (tbs0 : List TypeBuilder) :
    ∀ (attrs : List (String × String)) (acc l : List Nat),
      (∀ x ∈ acc, x < tbs0.length) →
      attrs.foldlM (fun acc (a : String × String) =>
        match resolve_type [] a.2.toList with
        | .ok _ => Except.ok (ε := CompileError) acc
        | .error _ =>
          match tbs0.findIdx? (fun (b : TypeBuilder) => b.name = a.2) with
          | some adjIndex => Except.ok (acc ++ [adjIndex])
          | none => Except.error (.undefinedType a.2)) acc = .ok l →
      ∀ v ∈ l, v < tbs0.length := by
  intro attrs
  induction attrs with
  | nil =>
    intro acc l hacc h v hv
    simp only [List.foldlM_nil] at h
    rcases Except.ok.injEq .. ▸ h with rfl
    exact hacc v hv
  | cons a rest ih =>
    intro acc l hacc h v hv
    rw [List.foldlM_cons] at h
    rcases hr : resolve_type [] a.2.toList with e | t
    · rw [hr] at h
      rcases hfi : tbs0.findIdx? (fun (b : TypeBuilder) => b.name = a.2) with _ | j
      · rw [hfi] at h
        exact Except.noConfusion (show Except.error (ε := CompileError)
          (.undefinedType a.2) = Except.ok l from h)
      · rw [hfi] at h
        refine ih _ l ?_ h v hv
        intro x hx
        rcases List.mem_append.mp hx with hx2 | hx2
        · exact hacc x hx2
        · rcases List.mem_singleton.mp hx2 with rfl
          exact findIdx?_some_lt _ _ _ hfi
    · rw [hr] at h
      exact ih acc l hacc h v hv

/-- Each per-builder dependency list holds positions in the builder list. -/
theorem builder_deps_lt (tbs0 : List TypeBuilder) (tb : TypeBuilder)
    (l : List Nat) (h : builder_deps tbs0 tb = .ok l) :
    ∀ v ∈ l, v < tbs0.length := by
  cases tb with
  | enumB n e =>
    simp only [builder_deps, Except.ok.injEq] at h
    subst h
    simp
  | structB n attrs =>
    exact builder_attr_fold_lt tbs0 attrs [] l (by simp) h

/-- A successful `mapM` over the per-builder dependency function produces
one adjacency list per builder, each holding positions in the builder
list. -/
theorem builder_mapM_spec (tbs0 : List TypeBuilder) :
    ∀ (tbs : List TypeBuilder) (adj : List (List Nat)),
      tbs.mapM (builder_deps tbs0) = .ok adj →
      adj.length = tbs.length ∧ ∀ l ∈ adj, ∀ v ∈ l, v < tbs0.length := by
  intro tbs
  induction tbs with
  | nil =>
    intro adj h
    have h2 : Except.ok (ε := CompileError) ([] : List (List Nat)) = Except.ok adj := h
    rcases Except.ok.injEq .. ▸ h2 with rfl
    exact ⟨rfl, by simp⟩
  | cons tb rest ih =>
    intro adj h
    rw [List.mapM_cons] at h
    rcases htb : builder_deps tbs0 tb with e | hd
    · rw [htb] at h
      exact Except.noConfusion (show Except.error (ε := CompileError) e
        = Except.ok adj from h)
    · rw [htb] at h
      have h1 : (rest.mapM (builder_deps tbs0) >>= fun xs =>
          pure (hd :: xs)) = Except.ok adj := h
      rcases hrest : rest.mapM (builder_deps tbs0) with e | tl
      · rw [hrest] at h1
        exact Except.noConfusion (show Except.error (ε := CompileError) e
          = Except.ok adj from h1)
      · rw [hrest] at h1
        have h2 : Except.ok (ε := CompileError) (hd :: tl) = Except.ok adj := h1
        rcases Except.ok.injEq .. ▸ h2 with rfl
        obtain ⟨hlen, hmem⟩ := ih tl hrest
        refine ⟨by simp [hlen], ?_⟩
        intro l hl v hv
        rcases List.mem_cons.mp hl with rfl | hl2
        · exact builder_deps_lt tbs0 tb l htb v hv
        · exact hmem l hl2 v hv

/-- Claim C9: for every acyclic dependency graph of declared type definitions,
both topological orderings of the source place every type strictly after
all types it references.  Concretely: the index order underlying
`topo_sort_types` (struct attributes and array elements found by structural
equality) and the one underlying `topo_sort_type_builders` (struct
attributes whose descriptor is not an in-place primitive, resolved to a
declared builder by name) each enumerate all node indices exactly once, and
every dependency edge `u → v` puts `v` strictly before `u` — so each struct
attribute resolves against an already-elaborated list. -/
theorem c9_topological_order (types : List Ty) (tbs : List TypeBuilder)
    (adjB : List (List Nat))
    (hacyc1 : GraphAcyclic (type_adj_lists types))
    (hok : builder_adj_lists tbs = .ok adjB)
    (hacyc2 : GraphAcyclic adjB) :
    (topo_sort_types types =
      (topo_order (type_adj_lists types)).map (fun i => types.getD i default)) ∧
    (∀ u, u ∈ topo_order (type_adj_lists types) ↔ u < types.length) ∧
    (topo_order (type_adj_lists types)).Nodup ∧
    (∀ u v, step_rel (type_adj_lists types) u v →
      (topo_order (type_adj_lists types)).indexOf v <
        (topo_order (type_adj_lists types)).indexOf u) ∧
    (topo_sort_type_builders tbs =
      .ok ((topo_order adjB).map (fun i => tbs.getD i default))) ∧
    (∀ u, u ∈ topo_order adjB ↔ u < tbs.length) ∧
    (topo_order adjB).Nodup ∧
    (∀ u v, step_rel adjB u v →
      (topo_order adjB).indexOf v < (topo_order adjB).indexOf u) := by
  obtain ⟨hlenB, hmemB⟩ := builder_mapM_spec tbs tbs adjB hok
  have hadjrB : ∀ u v, step_rel adjB u v → v < adjB.length := by
    intro u v hstep
    unfold step_rel at hstep
    rcases Nat.lt_or_ge u adjB.length with hu | hu
    · have hgd : adjB.getD u [] = adjB[u] := by
        rw [List.getD_eq_getElem?_getD, List.getElem?_eq_getElem hu]
        rfl
      rw [hgd] at hstep
      have hv := hmemB (adjB[u]) (List.getElem_mem hu) v hstep
      omega
    · rw [List.getD_eq_default _ _ hu] at hstep
      simp at hstep
  obtain ⟨hm1, hn1, ho1⟩ :=
    topo_order_spec (type_adj_lists types) hacyc1 (type_adj_lists_range types)
  obtain ⟨hm2, hn2, ho2⟩ := topo_order_spec adjB hacyc2 hadjrB
  refine ⟨rfl, ?_, hn1, ho1, ?_, ?_, hn2, ho2⟩
  · intro u
    rw [hm1 u, type_adj_lists_length]
  · unfold topo_sort_type_builders
    rw [hok]
  · intro u
    rw [hm2 u, hlenB]

/-- The two-node dependency graph `0 → 1` is acyclic. -/
theorem graph_acyclic_two_node : GraphAcyclic [[1], []] := by
  have hstep : ∀ a b : Nat, step_rel [[1], []] a b → a = 0 ∧ b = 1 := by
    intro a b h
    unfold step_rel at h
    match a with
    | 0 =>
      simp at h
      exact ⟨rfl, h⟩
    | 1 => simp at h
    | n + 2 =>
      rw [List.getD_eq_default _ _ (by simp)] at h
      simp at h
  intro u hu
  have hlast : ∀ x y, Relation.TransGen (step_rel [[1], []]) x y → y = 1 := by
    intro x y h
    induction h with
    | single hs => exact (hstep _ _ hs).2
    | tail _ hs _ => exact (hstep _ _ hs).2
  have hfirst : ∀ x y, Relation.TransGen (step_rel [[1], []]) x y → x = 0 := by
    intro x y h
    induction h with
    | single hs => exact (hstep _ _ hs).1
    | tail _ _ ih => exact ih
  have h1 := hlast u u hu
  have h0 := hfirst u u hu
  omega

/-- Claim C9 witness: a struct `S` referencing an enum `E` (both as elaborated
types and as builders).  Both dependency graphs are `[[1], []]`; the
orderings contain both nodes, are duplicate-free, and place the dependency
`E` (index 1) strictly before `S` (index 0). -/
theorem c9_topological_order_witness :
    (0 ∈ topo_order (type_adj_lists
        [Ty.struct "S" [("f", Ty.enum "E" 0 [("A", 0)])], Ty.enum "E" 0 [("A", 0)]])) ∧
    (topo_order (type_adj_lists
        [Ty.struct "S" [("f", Ty.enum "E" 0 [("A", 0)])],
          Ty.enum "E" 0 [("A", 0)]])).Nodup ∧
    ((topo_order (type_adj_lists
        [Ty.struct "S" [("f", Ty.enum "E" 0 [("A", 0)])],
          Ty.enum "E" 0 [("A", 0)]])).indexOf 1 <
      (topo_order (type_adj_lists
        [Ty.struct "S" [("f", Ty.enum "E" 0 [("A", 0)])],
          Ty.enum "E" 0 [("A", 0)]])).indexOf 0) ∧
    (topo_sort_type_builders
        [TypeBuilder.structB "S" [("f", "E")], TypeBuilder.enumB "E" []] =
      .ok ((topo_order [[1], []]).map (fun i =>
        ([TypeBuilder.structB "S" [("f", "E")],
          TypeBuilder.enumB "E" []]).getD i default))) ∧
    ((topo_order [[1], []]).indexOf 1 < (topo_order [[1], []]).indexOf 0) := by
  have hadj : type_adj_lists
      [Ty.struct "S" [("f", Ty.enum "E" 0 [("A", 0)])], Ty.enum "E" 0 [("A", 0)]] =
      [[1], []] := by decide
  have hokB : builder_adj_lists
      [TypeBuilder.structB "S" [("f", "E")], TypeBuilder.enumB "E" []] =
      .ok [[1], []] := by decide
  obtain ⟨-, hmem1, hnd1, hord1, heq2, hmem2, hnd2, hord2⟩ :=
    c9_topological_order
      [Ty.struct "S" [("f", Ty.enum "E" 0 [("A", 0)])], Ty.enum "E" 0 [("A", 0)]]
      [TypeBuilder.structB "S" [("f", "E")], TypeBuilder.enumB "E" []]
      [[1], []] (by rw [hadj]; exact graph_acyclic_two_node) hokB
      graph_acyclic_two_node
  refine ⟨(hmem1 0).mpr (by norm_num), hnd1, ?_, heq2, ?_⟩
  · refine hord1 0 1 ?_
    rw [show step_rel (type_adj_lists
      [Ty.struct "S" [("f", Ty.enum "E" 0 [("A", 0)])], Ty.enum "E" 0 [("A", 0)]]) 0 1 =
        step_rel [[1], []] 0 1 from by rw [hadj]]
    unfold step_rel
    decide
  · refine hord2 0 1 ?_
    unfold step_rel
    decide
